import Mathlib

/-!
Verification of the two localization tools of this repository:
text-width validation (tools/check_text_length.py) and Vietnamese glyph
atlas generation (tools/gen_viet_font.py).  Every definition below is a
shallow embedding of the corresponding Python function; machine strings
become lists of characters, images become pixel functions, and the
external rasterizer (PIL font rendering) becomes an abstract font record.
-/

/-! ## Text-width validator (tools/check_text_length.py) -/

/-- Maximum characters per line (Game Boy screen is 20 tiles, borders take 2).
Embeds the constant `MAX_LINE_LENGTH = 18`. -/
def MAX_LINE_LENGTH : Nat := 18

/-- The fixed registry of control-code names, `CONTROL_CODES` in the source.
The width computation never consults it; it exists for documentation. -/
def CONTROL_CODES : List String :=
  [ "<NULL>", "<PLAY_G>", "<MOBILE>", "<CR>", "<BSP>", "<LF>", "<POKE>",
    "<WBR>", "<RED>", "<GREEN>", "<ENEMY>", "<MOM>", "<PKMN>", "<_CONT>",
    "<SCROLL>", "<NEXT>", "<LINE>", "<PARA>", "<PLAYER>", "<RIVAL>",
    "<CONT>", "<……>", "<DONE>", "<PROMPT>", "<TARGET>", "<USER>", "<PC>",
    "<TM>", "<TRAINER>", "<ROCKET>", "<DEXEND>", "<PK>", "<MN>", "<DOT>",
    "<COLON>", "<JP_18>", "<NI>", "<TTE>", "<WO>", "<TA!>", "<KOUGEKI>",
    "<WA>", "<NO>", "<ROUTE>", "<WATASHI>", "<KOKO_WA>", "<GA>",
    "<POKEMON>", "<BOLD_A>", "<BOLD_B>", "<BOLD_C>", "<BOLD_D>",
    "<BOLD_E>", "<BOLD_F>", "<BOLD_G>", "<BOLD_H>", "<BOLD_I>",
    "<BOLD_V>", "<BOLD_S>", "<BOLD_L>", "<BOLD_M>", "<LV>", "<DO>", "<ID>" ]

/-- Files excluded from checking, `EXCLUDE_FILES` in the source. -/
def EXCLUDE_FILES : List String :=
  ["name_input_chars.asm", "mail_input_chars.asm"]

/-- Split a character list at the first closing bracket.  Models how the
regex `<[^>]+>` locates the closing `>` for a candidate match: returns the
(`>`-free) gap before the first `>` and the remainder after it. -/
def findGt : List Char → Option (List Char × List Char)
  | [] => none
  | c :: cs =>
    if c = '>' then some ([], cs)
    else
      match findGt cs with
      | some (a, b) => some (c :: a, b)
      | none => none

/-- One left-to-right pass of `CONTROL_CODE_PATTERN.sub("", text)` for the
pattern `<[^>]+>`, with explicit fuel so that the function is structural
and computes by kernel reduction.  At a `<` the matcher consumes through
the first following `>` provided the gap is non-empty; an unterminated or
empty bracket leaves the `<` as literal text.  Fuel `0` is never reached
when the fuel is at least the list length. -/
def stripFuel : Nat → List Char → List Char
  | 0, l => l
  | _ + 1, [] => []
  | fuel + 1, c :: cs =>
    if c = '<' then
      match findGt cs with
      | some (gap, rest) =>
        if gap = [] then c :: stripFuel fuel cs else stripFuel fuel rest
      | none => c :: stripFuel fuel cs
    else c :: stripFuel fuel cs

/-- `CONTROL_CODE_PATTERN.sub("", text)`: remove every control-code token. -/
def stripCC (l : List Char) : List Char := stripFuel l.length l

/-- `get_visible_length`: visible width of a text string, counting each
remaining character (code point, as Python `len` does) as one tile. -/
def get_visible_length (s : String) : Nat := (stripCC s.data).length

/-- ASCII whitespace as matched by `\s` on the corpus of this repository. -/
def isPySpace (c : Char) : Bool :=
  c = ' ' ∨ c = '\t' ∨ c = '\n' ∨ c = '\r' ∨ c = Char.ofNat 11 ∨ c = Char.ofNat 12

/-- Split at the first double quote: the content before it (quote-free,
the group `([^"]*)`) and the remainder.  `none` when the closing quote is
missing, in which case the regex does not match. -/
def takeToQuote : List Char → Option (List Char × List Char)
  | [] => none
  | c :: cs =>
    if c = '"' then some ([], cs)
    else
      match takeToQuote cs with
      | some (a, b) => some (c :: a, b)
      | none => none

/-- `DB_STRING_PATTERN.match(line)` for the pattern `^\s*db\s+"([^"]*)"`:
returns the captured quoted content when the line is a text definition. -/
def dbMatch (line : List Char) : Option (List Char) :=
  match line.dropWhile isPySpace with
  | 'd' :: 'b' :: rest =>
    match rest with
    | c :: rest2 =>
      if isPySpace c then
        match rest2.dropWhile isPySpace with
        | '"' :: r =>
          match takeToQuote r with
          | some (content, _) => some content
          | none => none
        | _ => none
      else none
    | [] => none
  | _ => none

/-- A length violation record, `errors` entries in `check_file`. -/
structure TErr where
  file : String
  line : Nat
  text : String
  length : Nat
  max : Int
deriving DecidableEq

/-- `check_file`: scan the lines of one file (1-based numbering) and
collect the text definitions whose visible length exceeds the hard-coded
default `MAX_LINE_LENGTH`. -/
def check_file (fname : String) (lines : List String) : List TErr :=
  (List.enumFrom 1 lines).filterMap fun nl =>
    match dbMatch nl.2.data with
    | some text =>
      let len := get_visible_length (String.mk text)
      if MAX_LINE_LENGTH < len then
        some ⟨fname, nl.1, String.mk text, len, (MAX_LINE_LENGTH : Int)⟩
      else none
    | none => none

/-- One input file: basename and its lines, as `readlines` delivers them. -/
structure SrcFile where
  name : String
  lines : List String

/-- The explicit-arguments branch of `main`: every given (regular) file is
checked; no exclusion test is performed in this branch. -/
def runExplicit (files : List SrcFile) : List TErr :=
  files.flatMap fun f => check_file f.name f.lines

/-- The default-paths branch of `main`: files discovered by `rglob("*.asm")`
are skipped when their basename is in `EXCLUDE_FILES`. -/
def runDiscovered (files : List SrcFile) : List TErr :=
  files.flatMap fun f =>
    if EXCLUDE_FILES.contains f.name then [] else check_file f.name f.lines

/-- The post-collection filter of `main`: when the requested maximum
differs from the default, keep only the collected errors longer than it
and update their recorded maximum. -/
def applyMaxFilter (maxLength : Int) (errs : List TErr) : List TErr :=
  if maxLength ≠ (MAX_LINE_LENGTH : Int) then
    (errs.filter fun e => maxLength < (e.length : Int)).map
      fun e => { e with max := maxLength }
  else errs

/-- The whole `main` run: gather errors from the explicit files (when any
are given) or from the discovered default paths, apply the maximum-length
filter, and compute the process exit code (`1` exactly when errors remain
and warn-only mode is off). -/
def mainRun (explicitFiles discovered : List SrcFile) (maxLength : Int)
    (warnOnly : Bool) : List TErr × Nat :=
  let all :=
    if explicitFiles.isEmpty then runDiscovered discovered
    else runExplicit explicitFiles
  let errs := applyMaxFilter maxLength all
  (errs, if errs ≠ [] ∧ warnOnly = false then 1 else 0)

/-! ## Atlas generator (tools/gen_viet_font.py) -/

/-- A grayscale image: dimensions plus a pixel function (values 0..255). -/
structure Img where
  width : Nat
  height : Nat
  px : Nat → Nat → Nat

/-- An abstract rasterization source (a PIL font): per character, the ink
bounding box that `draw.textbbox((0, 0), char, font)` reports, and the
antialiased coverage mask (0 = no ink) at each offset from the text
origin.  The concrete shapes come from font files outside this system. -/
structure PFont where
  bboxL : Char → Int
  bboxT : Char → Int
  bboxR : Char → Int
  bboxB : Char → Int
  mask : Char → Int → Int → Nat

/-- Vietnamese characters mapped to their tile positions (0-127,
corresponding to slots 0x80-0xFF): `VIET_CHAR_POSITIONS`, in the insertion
order of the source dictionary. -/
def VIET_CHAR_POSITIONS : List (Nat × Char) :=
  [ (0, 'ă'), (1, 'ắ'), (2, 'ằ'), (3, 'ẳ'), (4, 'ẵ'), (5, 'ặ'), (6, 'â'),
    (7, 'ấ'), (8, 'ầ'), (9, 'ẩ'), (10, 'ẫ'), (11, 'ậ'), (12, 'ê'),
    (13, 'ế'), (14, 'ề'), (15, 'ể'),
    (16, 'ễ'), (17, 'ệ'), (18, 'ô'), (19, 'ố'), (20, 'ồ'), (21, 'ổ'),
    (22, 'ỗ'), (23, 'ộ'), (24, 'ơ'), (25, 'ớ'), (26, 'ờ'), (27, 'ở'),
    (29, 'ỡ'), (30, 'ợ'), (31, 'ư'),
    (58, 'ứ'), (59, 'ừ'), (60, 'ử'), (61, 'ữ'), (62, 'ự'), (63, 'á'),
    (64, 'à'), (65, 'ả'), (66, 'ã'), (67, 'ạ'), (68, 'è'), (69, 'ẻ'),
    (70, 'ẽ'), (71, 'ẹ'), (72, 'í'), (73, 'ì'), (74, 'ỉ'), (75, 'ĩ'),
    (76, 'ị'), (77, 'ó'), (78, 'ò'), (79, 'ỏ'),
    (80, 'õ'), (81, 'ọ'), (82, 'ú'), (83, 'ù'), (84, 'ủ'), (85, 'ũ'),
    (86, 'ụ'), (87, 'ý'), (88, 'ỳ'), (89, 'ỷ'), (90, 'ỹ'), (91, 'ỵ'),
    (92, 'đ') ]

/-- Positions kept from the original font, `KEEP_FROM_ORIGINAL`:
`set(range(32, 58))`, plus `28`, plus `range(93, 128)`. -/
def KEEP_FROM_ORIGINAL (pos : Nat) : Bool :=
  (32 ≤ pos ∧ pos < 58) ∨ pos = 28 ∨ (93 ≤ pos ∧ pos < 128)

/-- Pixel x-coordinate of the left edge of the cell of a tile position:
`x = (pos % cols) * tile_size`. -/
def cellX (cols pos : Nat) : Nat := pos % cols * 8

/-- Pixel y-coordinate of the top edge of the cell of a tile position:
`y = (pos // cols) * tile_size`. -/
def cellY (cols pos : Nat) : Nat := pos / cols * 8

/-- Membership of a pixel in the 8x8 cell of a tile position. -/
def inCell (cols pos i j : Nat) : Prop :=
  cellX cols pos ≤ i ∧ i ≤ cellX cols pos + 7 ∧
  cellY cols pos ≤ j ∧ j ≤ cellY cols pos + 7

instance instDecidableInCell (cols pos i j : Nat) :
    Decidable (inCell cols pos i j) := by
  unfold inCell; exact inferInstance

/-- Horizontal text origin used by `draw.text`:
`text_x = x + (tile_size - text_width) // 2 - bbox[0]`, with Python floor
division. -/
def textX (cols : Nat) (font : PFont) (pos : Nat) (ch : Char) : Int :=
  (cellX cols pos : Int) + Int.fdiv (8 - (font.bboxR ch - font.bboxL ch)) 2
    - font.bboxL ch

/-- Vertical text origin used by `draw.text`: `text_y = y + 1 - bbox[1]`,
one pixel of top padding for stacked diacritics. -/
def textY (cols : Nat) (font : PFont) (pos : Nat) (ch : Char) : Int :=
  (cellY cols pos : Int) + 1 - font.bboxT ch

/-- The glyph of a mapped character deposits ink at pixel `(i, j)`. -/
def inkAt (cols : Nat) (font : PFont) (pc : Nat × Char) (i j : Nat) : Prop :=
  font.mask pc.2 ((i : Int) - textX cols font pc.1 pc.2)
    ((j : Int) - textY cols font pc.1 pc.2) ≠ 0

/-- Draw one mapped character: clear its 8x8 cell to white
(`draw.rectangle(..., fill=255)`), then blend the glyph mask in black
(`draw.text(..., fill=0)`).  Pixels without ink keep their cleared value. -/
def drawChar (cols : Nat) (font : PFont) (img : Img) (pc : Nat × Char) : Img :=
  let x := cellX cols pc.1
  let y := cellY cols pc.1
  let cleared : Img :=
    { img with px := fun i j =>
        if x ≤ i ∧ i ≤ x + 7 ∧ y ≤ j ∧ j ≤ y + 7 then 255 else img.px i j }
  let tx := textX cols font pc.1 pc.2
  let ty := textY cols font pc.1 pc.2
  { cleared with px := fun i j =>
      let m := font.mask pc.2 ((i : Int) - tx) ((j : Int) - ty)
      if m ≠ 0 then cleared.px i j * (255 - m) / 255 else cleared.px i j }

/-- The characters actually drawn: mapped positions not kept from the
original font (the loop over `VIET_CHAR_POSITIONS` with the
`KEEP_FROM_ORIGINAL` skip). -/
def drawTargets : List (Nat × Char) :=
  VIET_CHAR_POSITIONS.filter fun pc => !KEEP_FROM_ORIGINAL pc.1

/-- Draw every mapped, non-kept character into the image. -/
def drawAllChars (cols : Nat) (font : PFont) (img : Img) : Img :=
  drawTargets.foldl (drawChar cols font) img

/-- `img.point(lambda x: 0 if x < 128 else 255)`: global threshold to pure
black and white, applied to every pixel of the whole image. -/
def thresholdImg (img : Img) : Img :=
  { img with px := fun i j => if img.px i j < 128 then 0 else 255 }

/-- The image pipeline of `create_viet_font` on a loaded base atlas:
derive the column count from the width, draw the mapped characters, then
threshold the whole image. -/
def createVietImg (base : Img) (font : PFont) : Img :=
  thresholdImg (drawAllChars (base.width / 8) font base)

/-- The set of distinct pixel colors of an image, as `getcolors` counts
them: the image of the pixel function over the pixel grid. -/
def distinctColors (img : Img) : Finset Nat :=
  (Finset.range img.width ×ˢ Finset.range img.height).image
    fun p => img.px p.1 p.2

/-- Observable outcome of one `create_viet_font` invocation: process exit
code, fatal error message (when any), the image written to the output
path (when any), and the distinct-color count reported at the end. -/
structure GenResult where
  exitCode : Nat
  errorMsg : Option String
  written : Option Img
  reportedColors : Option Nat

/-- `create_viet_font`: when the base atlas is missing the run aborts with
exit code 1 and an error message naming the path, before writing anything;
otherwise the regenerated atlas is written and the distinct-color count of
the saved image is reported. -/
def create_viet_font (originalPath : String) (base : Option Img)
    (font : PFont) : GenResult :=
  match base with
  | none =>
    { exitCode := 1
      errorMsg := some ("Error: Original font not found at " ++ originalPath)
      written := none
      reportedColors := none }
  | some img =>
    let out := createVietImg img font
    { exitCode := 0
      errorMsg := none
      written := some out
      reportedColors := some (distinctColors out).card }

/-- Stable insertion of a key into an ascending list, used to model
Python `sorted`. -/
def insertSorted (n : Nat) : List Nat → List Nat
  | [] => [n]
  | m :: ms => if n ≤ m then n :: m :: ms else m :: insertSorted n ms

/-- Python `sorted(...)` on a list of keys. -/
def sortKeys (l : List Nat) : List Nat := l.foldr insertSorted []

/-- One hexadecimal digit, lowercase, as `{:x}` prints it. -/
def hexDigit (n : Nat) : Char :=
  Char.ofNat (if n < 10 then 48 + n else 87 + n)

/-- `{slot:02x}` for the byte range used by the charmap (slots 0..255). -/
def hex2 (n : Nat) : String := String.mk [hexDigit (n / 16), hexDigit (n % 16)]

/-- The slot/character pairs emitted by `print_charmap`: sorted mapped
positions, minus the kept ones, each paired as (0x80 + position, char). -/
def charmapPairs : List (Nat × Char) :=
  (sortKeys (VIET_CHAR_POSITIONS.map Prod.fst)).filterMap fun pos =>
    if KEEP_FROM_ORIGINAL pos then none
    else (VIET_CHAR_POSITIONS.lookup pos).map fun c => (0x80 + pos, c)

/-- Render one emitted charmap line:
`\tcharmap "{char}",         ${slot:02x}`. -/
def renderCharmapLine (p : Nat × Char) : String :=
  "\tcharmap \"" ++ String.mk [p.2] ++ "\",         $" ++ hex2 p.1

/-- The text lines printed by `print_charmap` (after the header). -/
def charmapLines : List String := charmapPairs.map renderCharmapLine

/-- Strict ascent of the slot components of an emitted pair list. -/
def ascendingSlots : List (Nat × Char) → Bool
  | [] => true
  | [_] => true
  | a :: b :: l => decide (a.1 < b.1) && ascendingSlots (b :: l)

/-- A font that renders nothing: every bounding box is empty and the mask
is everywhere zero.  Models a rasterization source that cannot draw any
of the target characters. -/
def font0 : PFont :=
  { bboxL := fun _ => 0, bboxT := fun _ => 0, bboxR := fun _ => 0,
    bboxB := fun _ => 0, mask := fun _ _ _ => 0 }

/-- A 128x64 base atlas (16 columns, 128 slots) that is entirely white. -/
def whiteBase : Img := { width := 128, height := 64, px := fun _ _ => 255 }

/-- A 128x64 base atlas whose every pixel is the mid gray value 100. -/
def grayBase : Img := { width := 128, height := 64, px := fun _ _ => 100 }

/-- An excluded-basename file containing one overlong text definition. -/
def excludedFileSample : SrcFile :=
  { name := "name_input_chars.asm"
    lines := ["db \"ABCDEFGHIJKLMNOPQRS\""] }

/-- A checked file containing a 15-character text definition. -/
def overflowFileSample : SrcFile :=
  { name := "data/text/sample.asm"
    lines := ["db \"ABCDEFGHIJKLMNO\""] }

/-- Concatenation of bracketed directive tokens: each token rendered as
`<` token `>`. -/
def bracketJoin (toks : List (List Char)) : List Char :=
  toks.flatMap fun t => '<' :: t ++ ['>']

/-! ## Helper lemmas -/

theorem findGt_eq_none {cs : List Char} : findGt cs = none ↔ '>' ∉ cs := by
  induction cs with
  | nil => simp [findGt]
  | cons c cs ih =>
    unfold findGt
    by_cases hc : c = '>'
    · simp [hc]
    · rw [if_neg hc]
      cases hfg : findGt cs with
      | some ab => simp [hfg] at ih; simp [ih, hc]
      | none => simp [hfg] at ih; simp [ih, Ne.symm hc]

theorem findGt_eq_some {cs a b : List Char} (h : findGt cs = some (a, b)) :
    cs = a ++ '>' :: b ∧ '>' ∉ a := by
  induction cs generalizing a b with
  | nil => simp [findGt] at h
  | cons c cs ih =>
    by_cases hc : c = '>'
    · simp only [findGt, if_pos hc] at h
      simp only [Option.some.injEq, Prod.mk.injEq] at h
      obtain ⟨rfl, rfl⟩ := h
      simp [hc]
    · simp only [findGt, if_neg hc] at h
      cases hfg : findGt cs with
      | some ab =>
        obtain ⟨a', b'⟩ := ab
        simp only [hfg, Option.some.injEq, Prod.mk.injEq] at h
        obtain ⟨rfl, rfl⟩ := h
        obtain ⟨h1, h2⟩ := ih hfg
        refine ⟨by simp [h1], ?_⟩
        intro hmem
        rcases List.mem_cons.mp hmem with hh | hh
        · exact hc hh.symm
        · exact h2 hh
      | none => simp [hfg] at h

theorem findGt_length {cs a b : List Char} (h : findGt cs = some (a, b)) :
    b.length < cs.length := by
  obtain ⟨h1, _⟩ := findGt_eq_some h
  subst h1
  simp
  omega

theorem findGt_append {cs a b : List Char} (h : findGt cs = some (a, b))
    (l2 : List Char) : findGt (cs ++ l2) = some (a, b ++ l2) := by
  induction cs generalizing a with
  | nil => simp [findGt] at h
  | cons c cs ih =>
    rw [List.cons_append]
    by_cases hc : c = '>'
    · simp only [findGt, if_pos hc] at h ⊢
      simp only [Option.some.injEq, Prod.mk.injEq] at h
      obtain ⟨rfl, rfl⟩ := h
      rfl
    · simp only [findGt, if_neg hc] at h ⊢
      cases hfg : findGt cs with
      | some ab =>
        obtain ⟨a', b'⟩ := ab
        simp only [hfg, Option.some.injEq, Prod.mk.injEq] at h
        obtain ⟨rfl, rfl⟩ := h
        simp [ih hfg]
      | none => simp [hfg] at h

theorem findGt_of_front {t : List Char} (ht : '>' ∉ t) (b : List Char) :
    findGt (t ++ '>' :: b) = some (t, b) := by
  induction t with
  | nil => simp [findGt]
  | cons c t ih =>
    have hc : c ≠ '>' := fun h => ht (h ▸ List.mem_cons_self c t)
    have ht' : '>' ∉ t := fun h => ht (List.mem_cons_of_mem c h)
    rw [List.cons_append]
    simp only [findGt, if_neg hc, ih ht']

theorem stripFuel_nil (fuel : Nat) : stripFuel fuel [] = [] := by
  cases fuel <;> rfl

theorem stripFuel_no_gt {cs : List Char} (h : '>' ∉ cs) (fuel : Nat) :
    stripFuel fuel cs = cs := by
  induction fuel generalizing cs with
  | zero => rfl
  | succ fuel ih =>
    cases cs with
    | nil => rfl
    | cons c cs =>
      have h' : '>' ∉ cs := fun hm => h (List.mem_cons_of_mem c hm)
      unfold stripFuel
      by_cases hc : c = '<'
      · rw [if_pos hc, findGt_eq_none.mpr h', ih h', hc]
      · rw [if_neg hc, ih h']

theorem stripFuel_no_lt {cs : List Char} (h : '<' ∉ cs) (fuel : Nat) :
    stripFuel fuel cs = cs := by
  induction fuel generalizing cs with
  | zero => rfl
  | succ fuel ih =>
    cases cs with
    | nil => rfl
    | cons c cs =>
      have hc : c ≠ '<' := fun hm => h (hm ▸ List.mem_cons_self c cs)
      have h' : '<' ∉ cs := fun hm => h (List.mem_cons_of_mem c hm)
      unfold stripFuel
      rw [if_neg hc, ih h']

theorem stripFuel_append {l2 : List Char} (h2 : '>' ∉ l2) :
    ∀ (fuel : Nat) (l1 : List Char),
      stripFuel fuel (l1 ++ l2) = stripFuel fuel l1 ++ l2 := by
  intro fuel
  induction fuel with
  | zero => intro l1; rfl
  | succ fuel ih =>
    intro l1
    cases l1 with
    | nil => rw [List.nil_append, stripFuel_no_gt h2, stripFuel_nil, List.nil_append]
    | cons c l1 =>
      rw [List.cons_append]
      by_cases hc : c = '<'
      · cases hfg : findGt l1 with
        | some ab =>
          obtain ⟨a, b⟩ := ab
          have hfg2 := findGt_append hfg l2
          simp only [stripFuel, if_pos hc, hfg, hfg2]
          by_cases ha : a = []
          · rw [if_pos ha, if_pos ha, ih l1, List.cons_append]
          · rw [if_neg ha, if_neg ha, ih b]
        | none =>
          have hg1 : '>' ∉ l1 := findGt_eq_none.mp hfg
          have hgapp : findGt (l1 ++ l2) = none := by
            rw [findGt_eq_none]
            simp only [List.mem_append]
            rintro (h | h)
            · exact hg1 h
            · exact h2 h
          simp only [stripFuel, if_pos hc, hfg, hgapp]
          rw [ih l1, List.cons_append]
      · simp only [stripFuel, if_neg hc]
        rw [ih l1, List.cons_append]

theorem stripFuel_congr : ∀ (f1 : Nat) (cs : List Char) (f2 : Nat),
    cs.length ≤ f1 → cs.length ≤ f2 → stripFuel f1 cs = stripFuel f2 cs := by
  intro f1
  induction f1 with
  | zero =>
    intro cs f2 h1 _
    rw [List.length_eq_zero.mp (Nat.le_zero.mp h1), stripFuel_nil, stripFuel_nil]
  | succ f1 ih =>
    intro cs f2 h1 h2
    cases cs with
    | nil => rw [stripFuel_nil, stripFuel_nil]
    | cons c cs =>
      cases f2 with
      | zero => simp at h2
      | succ f2 =>
        simp only [List.length_cons, Nat.add_le_add_iff_right] at h1 h2
        by_cases hc : c = '<'
        · cases hfg : findGt cs with
          | some ab =>
            obtain ⟨a, b⟩ := ab
            have hb : b.length < cs.length := findGt_length hfg
            simp only [stripFuel, if_pos hc, hfg]
            by_cases ha : a = []
            · rw [if_pos ha, if_pos ha, ih cs f2 h1 h2]
            · rw [if_neg ha, if_neg ha,
                ih b f2 (Nat.le_of_lt (Nat.lt_of_lt_of_le hb h1))
                  (Nat.le_of_lt (Nat.lt_of_lt_of_le hb h2))]
          | none =>
            simp only [stripFuel, if_pos hc, hfg]
            rw [ih cs f2 h1 h2]
        · simp only [stripFuel, if_neg hc]
          rw [ih cs f2 h1 h2]

theorem stripCC_append {l1 l2 : List Char} (h2 : '>' ∉ l2) :
    stripCC (l1 ++ l2) = stripCC l1 ++ l2 := by
  unfold stripCC
  rw [stripFuel_append h2 _ l1,
    stripFuel_congr (l1 ++ l2).length l1 l1.length (by simp) (Nat.le_refl _)]

theorem stripFuel_bracketJoin {toks : List (List Char)}
    (h : ∀ t ∈ toks, t ≠ [] ∧ '>' ∉ t) :
    ∀ fuel : Nat, (bracketJoin toks).length ≤ fuel →
      stripFuel fuel (bracketJoin toks) = [] := by
  induction toks with
  | nil => intro fuel _; rw [show bracketJoin [] = [] from rfl, stripFuel_nil]
  | cons t ts ih =>
    intro fuel hfuel
    have hjoin : bracketJoin (t :: ts) = '<' :: (t ++ '>' :: bracketJoin ts) := by
      simp [bracketJoin]
    rw [hjoin] at hfuel ⊢
    obtain ⟨hne, hgt⟩ := h t (List.mem_cons_self t ts)
    cases fuel with
    | zero => simp at hfuel
    | succ fuel =>
      simp only [stripFuel, if_pos rfl, findGt_of_front hgt, if_neg hne]
      refine ih (fun u hu => h u (List.mem_cons_of_mem t hu)) fuel ?_
      simp only [List.length_cons, List.length_append] at hfuel ⊢
      omega

theorem cell_inj (cols p q i j : Nat) (hp : inCell cols p i j)
    (hq : inCell cols q i j) : p = q := by
  obtain ⟨hp1, hp2, hp3, hp4⟩ := hp
  obtain ⟨hq1, hq2, hq3, hq4⟩ := hq
  unfold cellX cellY at *
  have h1 : p % cols = q % cols := by omega
  have h2 : p / cols = q / cols := by omega
  have ep := Nat.div_add_mod p cols
  have eq2 := Nat.div_add_mod q cols
  rw [h1, h2] at ep
  omega

theorem drawChar_px_skip (cols : Nat) (font : PFont) (img : Img)
    (pc : Nat × Char) (i j : Nat) (hcell : ¬ inCell cols pc.1 i j)
    (hink : ¬ inkAt cols font pc i j) :
    (drawChar cols font img pc).px i j = img.px i j := by
  unfold inCell at hcell
  unfold inkAt at hink
  unfold drawChar
  dsimp only
  rw [if_neg hink, if_neg hcell]

theorem foldl_draw_skip (cols : Nat) (font : PFont) (s i j : Nat)
    (hs : inCell cols s i j) :
    ∀ (L : List (Nat × Char)) (img : Img),
      (∀ pc ∈ L, pc.1 ≠ s ∧ ∀ a b, inkAt cols font pc a b → inCell cols pc.1 a b) →
      (L.foldl (drawChar cols font) img).px i j = img.px i j := by
  intro L
  induction L with
  | nil => intro img _; rfl
  | cons pc L ih =>
    intro img h
    rw [List.foldl_cons, ih _ (fun q hq => h q (List.mem_cons_of_mem _ hq))]
    have hne := (h pc (List.mem_cons_self _ _)).1
    have hcontain := (h pc (List.mem_cons_self _ _)).2
    refine drawChar_px_skip _ _ _ _ _ _ ?_ ?_
    · exact fun hc => hne (cell_inj cols pc.1 s i j hc hs)
    · exact fun hk => hne (cell_inj cols pc.1 s i j (hcontain i j hk) hs)

theorem foldl_draw_width (L : List (Nat × Char)) (cols : Nat) (font : PFont) :
    ∀ img : Img, (L.foldl (drawChar cols font) img).width = img.width := by
  induction L with
  | nil => intro img; rfl
  | cons pc L ih => intro img; rw [List.foldl_cons, ih]; rfl

theorem foldl_draw_height (L : List (Nat × Char)) (cols : Nat) (font : PFont) :
    ∀ img : Img, (L.foldl (drawChar cols font) img).height = img.height := by
  induction L with
  | nil => intro img; rfl
  | cons pc L ih => intro img; rw [List.foldl_cons, ih]; rfl

theorem thresholdImg_px (img : Img) (i j : Nat) :
    (thresholdImg img).px i j = if img.px i j < 128 then 0 else 255 := rfl

theorem mem_drawTargets_not_keep {pc : Nat × Char} (h : pc ∈ drawTargets) :
    KEEP_FROM_ORIGINAL pc.1 = false := by
  unfold drawTargets at h
  have := (List.mem_filter.mp h).2
  simpa using this

theorem check_file_file_eq {n : String} {ls : List String} {e : TErr}
    (he : e ∈ check_file n ls) : e.file = n := by
  unfold check_file at he
  rw [List.mem_filterMap] at he
  obtain ⟨a, _, ha⟩ := he
  dsimp only at ha
  cases hdb : dbMatch a.2.data with
  | none => simp [hdb] at ha
  | some t =>
    simp only [hdb] at ha
    by_cases hlen : MAX_LINE_LENGTH < get_visible_length (String.mk t)
    · rw [if_pos hlen] at ha
      obtain rfl := Option.some.inj ha
      rfl
    · rw [if_neg hlen] at ha
      exact absurd ha (by simp)

theorem drawChar_font0_px (cols : Nat) (img : Img) (pc : Nat × Char)
    (h : ∀ a b, img.px a b = 255) (i j : Nat) :
    (drawChar cols font0 img pc).px i j = 255 := by
  unfold drawChar font0
  dsimp only
  rw [if_neg (fun hm => hm rfl)]
  split
  · rfl
  · exact h i j

theorem foldl_draw_font0_white (L : List (Nat × Char)) (cols : Nat) :
    ∀ img : Img, (∀ a b, img.px a b = 255) →
      ∀ i j, (L.foldl (drawChar cols font0) img).px i j = 255 := by
  induction L with
  | nil => intro img h i j; exact h i j
  | cons pc L ih =>
    intro img h i j
    rw [List.foldl_cons]
    exact ih _ (drawChar_font0_px cols img pc h) i j

/-- Pixel value of the generated atlas from the all-white base with the
empty-mask font: every pixel stays white. -/
theorem createVietImg_white_font0_px (i j : Nat) :
    (createVietImg whiteBase font0).px i j = 255 := by
  unfold createVietImg drawAllChars
  rw [thresholdImg_px,
    foldl_draw_font0_white drawTargets _ whiteBase (fun _ _ => rfl) i j]
  norm_num

/-! ## Claims -/

/-- C1: the claim fails on the code for a configured maximum below the
default.  With maximum 10, a qualifying line of visible width 15 yields
zero violations and exit code 0, because `check_file` only collects lines
wider than the hard-coded default 18 and the `main` filter only narrows
that list.  This contradicts the reported summary (the run prints that
all lines are within 10 characters). -/
theorem C1_code_behavior :
    get_visible_length "ABCDEFGHIJKLMNO" = 15 ∧ ((10 : Int) < 15) ∧
    mainRun [overflowFileSample] [] 10 false = ([], 0) := by
  refine ⟨by decide, by decide, by decide⟩

/-- C2 counterexample: a file whose basename is in the exclusion set,
passed as an explicit argument, produces a violation, so the claim as
stated is false for explicit file arguments. -/
theorem C2_counterexample :
    "name_input_chars.asm" ∈ EXCLUDE_FILES ∧
    (mainRun [excludedFileSample] [] 18 false).1.map (fun e => e.file) =
      ["name_input_chars.asm"] := by
  refine ⟨by decide, by decide⟩

/-- C2 (amended): a file whose basename is in the exclusion set produces
zero violations when discovered by directory traversal; a file passed as
an explicit argument is checked like any other file, with no exclusion
test. -/
theorem C2_amended (d fs : List SrcFile) (nm : String)
    (h : nm ∈ EXCLUDE_FILES) :
    (runDiscovered d).filter (fun e => e.file == nm) = [] ∧
    runExplicit fs = (fs.flatMap fun f => check_file f.name f.lines) := by
  refine ⟨?_, rfl⟩
  rw [List.filter_eq_nil_iff]
  intro e he
  unfold runDiscovered at he
  rw [List.mem_flatMap] at he
  obtain ⟨f, _, he2⟩ := he
  by_cases hex : EXCLUDE_FILES.contains f.name = true
  · rw [if_pos hex] at he2
    exact absurd he2 (by simp)
  · rw [if_neg hex] at he2
    have hfn : f.name ∉ EXCLUDE_FILES := by simpa using hex
    have hef : e.file = f.name := check_file_file_eq he2
    intro hbeq
    rw [beq_iff_eq, hef] at hbeq
    exact hfn (hbeq ▸ h)

/-- C2 witness: the excluded sample file yields no violations under
directory-traversal processing. -/
theorem C2_amended_witness :
    (runDiscovered [excludedFileSample]).filter
      (fun e => e.file == "name_input_chars.asm") = [] :=
  (C2_amended [excludedFileSample] [] "name_input_chars.asm" (by decide)).1

/-- C3 counterexample: the claim as stated fails, because the global
threshold is applied to protected cells too.  Slot position 32 is
protected, yet its base pixel value 100 (a mid gray) becomes 0 in the
generated atlas, so the cell is not preserved exactly. -/
theorem C3_counterexample :
    KEEP_FROM_ORIGINAL 32 = true ∧ inCell (grayBase.width / 8) 32 0 16 ∧
    grayBase.px 0 16 = 100 ∧ (createVietImg grayBase font0).px 0 16 = 0 := by
  refine ⟨by decide, by decide, rfl, by decide⟩

/-- C3 (amended): for every protected slot whose base cell is already
bilevel (every pixel pure black 0 or pure white 255), and whenever every
re-rendered glyph deposits its ink inside the cell of its own slot, the
generated atlas is pixel-identical to the base atlas on the protected
cell. -/
theorem C3_amended (base : Img) (font : PFont) (pos : Nat)
    (hkeep : KEEP_FROM_ORIGINAL pos = true)
    (hbw : ∀ i j, inCell (base.width / 8) pos i j →
      base.px i j = 0 ∨ base.px i j = 255)
    (hink : ∀ pc ∈ drawTargets, ∀ a b,
      inkAt (base.width / 8) font pc a b → inCell (base.width / 8) pc.1 a b) :
    ∀ i j, inCell (base.width / 8) pos i j →
      (createVietImg base font).px i j = base.px i j := by
  intro i j hij
  have hdraw : (drawAllChars (base.width / 8) font base).px i j = base.px i j := by
    unfold drawAllChars
    refine foldl_draw_skip _ font pos i j hij drawTargets base ?_
    intro pc hpc
    refine ⟨?_, hink pc hpc⟩
    intro heq
    exact absurd (heq ▸ mem_drawTargets_not_keep hpc) (by simp [hkeep])
  unfold createVietImg
  rw [thresholdImg_px, hdraw]
  rcases hbw i j hij with h | h <;> rw [h] <;> decide

/-- C3 witness: slot position 28 is protected; on an all-white (hence
bilevel) base with a font that renders no ink, the generated pixel at
(96, 8), inside the cell of slot position 28, equals the base pixel. -/
theorem C3_amended_witness :
    (createVietImg whiteBase font0).px 96 8 = whiteBase.px 96 8 :=
  C3_amended whiteBase font0 28 (by decide)
    (fun _ _ _ => Or.inr rfl)
    (fun _ _ a b hm => absurd rfl hm) 96 8 (by decide)

/-- C4 counterexample: the distinct-color count of a generated atlas is
not always 2: an all-white base atlas processed with a font that renders
no ink yields an all-white output with exactly one distinct color. -/
theorem C4_counterexample :
    (distinctColors (createVietImg whiteBase font0)).card ≠ 2 := by
  have him : distinctColors (createVietImg whiteBase font0) = {255} := by
    unfold distinctColors
    rw [show (createVietImg whiteBase font0).width = 128 from rfl,
      show (createVietImg whiteBase font0).height = 64 from rfl,
      Finset.image_congr (g := fun _ => (255 : Nat))
        (fun p _ => createVietImg_white_font0_px p.1 p.2),
      Finset.image_const ⟨(0, 0), by simp⟩ 255]
  rw [him]
  decide

/-- C4 (amended): every pixel of a generated atlas is pure black or pure
white, so the set of distinct colors is contained in `{0, 255}` and its
cardinality is at most 2 (it can be 1 for a monochrome result); the run
reports the actual distinct-color count of the written image rather than
enforcing the count as a hard postcondition. -/
theorem C4_amended (path : String) (base : Img) (font : PFont) :
    distinctColors (createVietImg base font) ⊆ {0, 255} ∧
    (distinctColors (createVietImg base font)).card ≤ 2 ∧
    create_viet_font path (some base) font =
      { exitCode := 0, errorMsg := none,
        written := some (createVietImg base font),
        reportedColors := some (distinctColors (createVietImg base font)).card } := by
  have hsub : distinctColors (createVietImg base font) ⊆ {0, 255} := by
    intro c hc
    unfold distinctColors at hc
    rw [Finset.mem_image] at hc
    obtain ⟨p, _, hp⟩ := hc
    have hbv : (createVietImg base font).px p.1 p.2 = 0 ∨
        (createVietImg base font).px p.1 p.2 = 255 := by
      unfold createVietImg
      rw [thresholdImg_px]
      split
      · exact Or.inl rfl
      · exact Or.inr rfl
    rcases hbv with h | h <;> rw [← hp, h] <;> simp
  refine ⟨hsub, ?_, rfl⟩
  calc (distinctColors (createVietImg base font)).card
      ≤ ({0, 255} : Finset Nat).card := Finset.card_le_card hsub
    _ = 2 := by decide

/-- C4 witness: the generated atlas from the all-white sample base has
colors contained in pure black and pure white. -/
theorem C4_amended_witness :
    distinctColors (createVietImg whiteBase font0) ⊆ {0, 255} :=
  (C4_amended "gfx/font/font.png" whiteBase font0).1

/-- C5: visible width is computed by removing every bracketed token
(`<` non-`>` characters `>`) and counting the remaining characters one
by one, independent of the directive registry: a string made only of
bracketed tokens has width 0, a string without `<` has width equal to
its character count (a 10-character accented string reports 10, not its
byte length), and a bracketed token outside the registry is still
removed. -/
theorem C5_visible_width :
    (∀ toks : List (List Char), (∀ t ∈ toks, t ≠ [] ∧ '>' ∉ t) →
      get_visible_length (String.mk (bracketJoin toks)) = 0) ∧
    (∀ cs : List Char, '<' ∉ cs →
      get_visible_length (String.mk cs) = cs.length) ∧
    get_visible_length "ăắằẳẵặâấầẩ" = 10 ∧
    ("<VIET>" ∉ CONTROL_CODES ∧ get_visible_length "<VIET>" = 0) := by
  refine ⟨?_, ?_, by decide, by decide, by decide⟩
  · intro toks h
    show (stripCC (bracketJoin toks)).length = 0
    rw [show stripCC (bracketJoin toks) = [] from
      stripFuel_bracketJoin h (bracketJoin toks).length (Nat.le_refl _)]
    rfl
  · intro cs h
    show (stripCC cs).length = cs.length
    unfold stripCC
    rw [stripFuel_no_lt h]

/-- C5 witness: a two-token bracketed string (one token outside the
registry) has width 0, and a plain three-character string has width 3. -/
theorem C5_witness :
    get_visible_length (String.mk (bracketJoin [['N', 'E', 'X', 'T'],
      ['V', 'I', 'E', 'T']])) = 0 ∧
    get_visible_length (String.mk ['a', 'b', 'c']) = 3 :=
  ⟨C5_visible_width.1 _ (by decide), C5_visible_width.2.1 _ (by decide)⟩

/-- C6: on input with an unterminated `<`, the (total, by construction)
width computation never matches across the missing closing bracket: the
`<` and every following character count as literal text, adding
`1 + v.length` to the width of the prefix. -/
theorem C6_unterminated (u v : List Char) (h : '>' ∉ v) :
    get_visible_length (String.mk (u ++ '<' :: v)) =
      get_visible_length (String.mk u) + 1 + v.length := by
  have h2 : '>' ∉ '<' :: v := by
    intro hm
    rcases List.mem_cons.mp hm with hh | hh
    · exact absurd hh (by decide)
    · exact h hh
  show (stripCC (u ++ '<' :: v)).length = (stripCC u).length + 1 + v.length
  rw [stripCC_append h2, List.length_append, List.length_cons]
  omega

/-- C6 witness: the unterminated tail `<TAG` after a one-character prefix
is counted entirely as literal text. -/
theorem C6_witness :
    get_visible_length (String.mk (['a'] ++ '<' :: ['T', 'A', 'G'])) =
      get_visible_length (String.mk ['a']) + 1 + ['T', 'A', 'G'].length :=
  C6_unterminated ['a'] ['T', 'A', 'G'] (by decide)

/-- C7: the exit code of a validator run is 0 exactly when no violations
remain after filtering or warn-only mode is active, and 1 exactly when
violations remain and warn-only mode is off. -/
theorem C7_exit_code (ef df : List SrcFile) (M : Int) (w : Bool) :
    ((mainRun ef df M w).2 = 0 ↔ ((mainRun ef df M w).1 = [] ∨ w = true)) ∧
    ((mainRun ef df M w).2 = 1 ↔ ((mainRun ef df M w).1 ≠ [] ∧ w = false)) := by
  unfold mainRun
  dsimp only
  by_cases he :
      applyMaxFilter M (if ef.isEmpty then runDiscovered df else runExplicit ef) = [] <;>
    cases w <;> simp [he]

/-- C7 witness: an empty warn-only run exits with code 0. -/
theorem C7_witness : (mainRun [] [] 18 true).2 = 0 :=
  (C7_exit_code [] [] 18 true).1.mpr (Or.inr rfl)

/-- C8: when the base atlas is missing, the generator aborts with exit
code 1 and an error message naming the missing path, and nothing is
written to the output path. -/
theorem C8_missing_base (path : String) (font : PFont) :
    (create_viet_font path none font).exitCode = 1 ∧
    (create_viet_font path none font).written = none ∧
    (create_viet_font path none font).errorMsg =
      some ("Error: Original font not found at " ++ path) :=
  ⟨rfl, rfl, rfl⟩

/-- C8 witness: the abort outcome at the default base-atlas path. -/
theorem C8_witness :
    (create_viet_font "gfx/font/font_original.png" none font0).exitCode = 1 ∧
    (create_viet_font "gfx/font/font_original.png" none font0).written = none :=
  ⟨(C8_missing_base "gfx/font/font_original.png" font0).1,
    (C8_missing_base "gfx/font/font_original.png" font0).2.1⟩

set_option maxRecDepth 65536 in
/-- C9: the emitted charmap contains exactly the mapped, non-protected
slots in ascending slot order, each pairing 0x80 plus the tile position
with its target character; in particular it maps slot 0x80 to the
character U+0103, and the rendered text contains the corresponding
charmap line. -/
theorem C9_charmap :
    charmapPairs = (VIET_CHAR_POSITIONS.filter
      fun pc => !KEEP_FROM_ORIGINAL pc.1).map (fun pc => (0x80 + pc.1, pc.2)) ∧
    ascendingSlots charmapPairs = true ∧
    (0x80, 'ă') ∈ charmapPairs ∧
    charmapLines = charmapPairs.map renderCharmapLine ∧
    "\tcharmap \"ă\",         $80" ∈ charmapLines := by
  refine ⟨by decide, by decide, by decide, rfl, by decide⟩

theorem thresholdImg_width (I : Img) : (thresholdImg I).width = I.width := rfl

theorem thresholdImg_height (I : Img) : (thresholdImg I).height = I.height := rfl

theorem createVietImg_eq (base : Img) (font : PFont) :
    createVietImg base font =
      thresholdImg (drawAllChars (base.width / 8) font base) := rfl

theorem drawAllChars_eq (cols : Nat) (font : PFont) (img : Img) :
    drawAllChars cols font img = drawTargets.foldl (drawChar cols font) img := rfl

/-- C10: the generated atlas has exactly the dimensions of the base
atlas: drawing mutates cells in place and thresholding is pointwise, so
the image is never resized, cropped, or extended. -/
theorem C10_dimensions (base : Img) (font : PFont) :
    (createVietImg base font).width = base.width ∧
    (createVietImg base font).height = base.height := by
  rw [createVietImg_eq, thresholdImg_width, thresholdImg_height, drawAllChars_eq]
  exact ⟨foldl_draw_width drawTargets _ font base,
    foldl_draw_height drawTargets _ font base⟩

/-- C10 witness: dimensions preserved on the concrete sample base. -/
theorem C10_witness :
    (createVietImg whiteBase font0).width = whiteBase.width ∧
    (createVietImg whiteBase font0).height = whiteBase.height :=
  C10_dimensions whiteBase font0
